import Mathlib

/-!
Shallow embedding of `huffman.go` from `abhinav/huffman-go`: an n-ary Huffman
labeller.  `Label base freqs` builds a tree over one flat node pool driven by
Go's `container/heap`, then reads each item's label off the parent links.

The embedding mirrors the source:
* `Node` is the Go `node` struct (zero value has all fields `0`);
* `siftDown`/`siftUp`/`heapInit`/`heapPush`/`heapPop` are Go's
  `container/heap` `down`/`up`/`Init`/`Push`/`Pop` over a slice of node-pool
  indices, ordered by `Freq` exactly as `nodeHeap.Less` does;
* Go `int` addition wraps at 64 bits, modelled by `goAdd`;
* the unbounded `for` loops of the source become fuelled recursions; every
  fuel argument used is provably sufficient (the loops' iteration counts are
  bounded), so the fuelled functions compute the same results as the loops.
-/

namespace Huffman

/-- Mirror of the Go `node` struct.  Go's zero value (from `make([]node, n)`)
has every field `0`, which is the default here as well. -/
structure Node where
  parentIndex : Int := 0
  siblingIndex : Int := 0
  totalHops : Int := 0
  freq : Int := 0
  deriving DecidableEq, Repr

/-- Go's zero-valued `node`. -/
def zeroNode : Node := ⟨0, 0, 0, 0⟩

/-- Read slot `i` of the node pool; out-of-range reads return the zero node.
All reachable reads are in range. -/
def nodeAt (ns : List Node) (i : Nat) : Node := ns.getD i zeroNode

/-- Two's-complement 64-bit wrap-around of Go `int` addition. -/
def goAdd (a b : Int) : Int := (a + b + 2 ^ 63) % 2 ^ 64 - 2 ^ 63

/-- Heap-slice read (`ns[i]` on the Go side); the heap stores node-pool
indices in place of the Go `*node` pointers. -/
def hGet (h : List Nat) (i : Nat) : Nat := h.getD i 0

/-- `Swap` of `container/heap`'s slice.  Out-of-range indices leave the slice
unchanged (all reachable swaps are in range). -/
def swapL (h : List Nat) (i j : Nat) : List Nat :=
  if hi : i < h.length then
    if hj : j < h.length then (h.set i (h.get ⟨j, hj⟩)).set j (h.get ⟨i, hi⟩)
    else h
  else h

/-- Go `container/heap`'s `down(h, i0, n)`.  The loop index at least doubles
each iteration, so fuel `n` (we always pass the slice length) suffices. -/
def siftDown (lt : Nat → Nat → Bool) : Nat → List Nat → Nat → Nat → List Nat
  | 0, h, _, _ => h
  | fuel + 1, h, i, n =>
    let j1 := 2 * i + 1
    if j1 ≥ n then h
    else
      let j := if j1 + 1 < n then
          (if lt (hGet h (j1 + 1)) (hGet h j1) then j1 + 1 else j1)
        else j1
      if lt (hGet h j) (hGet h i) then siftDown lt fuel (swapL h i j) j n
      else h

/-- Go `container/heap`'s `up(h, j)`.  The loop index at least halves each
iteration, so fuel = slice length suffices. -/
def siftUp (lt : Nat → Nat → Bool) : Nat → List Nat → Nat → List Nat
  | 0, h, _ => h
  | fuel + 1, h, j =>
    let i := (j - 1) / 2
    if i = j then h
    else if lt (hGet h j) (hGet h i) then siftUp lt fuel (swapL h i j) i
    else h

/-- Go `container/heap`'s `Init`: `down` on `i = n/2 - 1, …, 0`. -/
def heapInit (lt : Nat → Nat → Bool) (h : List Nat) : List Nat :=
  (List.range (h.length / 2)).reverse.foldl
    (fun acc i => siftDown lt h.length acc i h.length) h

/-- Go `container/heap`'s `Push`: append, then `up` on the last slot. -/
def heapPush (lt : Nat → Nat → Bool) (h : List Nat) (x : Nat) : List Nat :=
  let h1 := h ++ [x]
  siftUp lt h1.length h1 (h1.length - 1)

/-- Go `container/heap`'s `Pop`: swap slot `0` with the last slot, `down` over
the shortened prefix, then remove and return the last element. -/
def heapPop (lt : Nat → Nat → Bool) (h : List Nat) : Nat × List Nat :=
  let n := h.length - 1
  let h2 := siftDown lt h.length (swapL h 0 n) 0 n
  (hGet h2 n, h2.take n)

/-- `nodeHeap.Less`: compare two pool indices by node frequency. -/
def ltv (ns : List Node) (a b : Nat) : Bool :=
  decide ((nodeAt ns a).freq < (nodeAt ns b).freq)

/-- The mutable state of `Label`'s tree construction: the node pool `nodes`,
the heap `hp` of pool indices, and `nextNodeIdx`. -/
structure BuildState where
  nodes : List Node
  hp : List Nat
  next : Nat
  deriving Repr

/-- The field updates `child.ParentIndex = parentIdx; child.SiblingIndex = i`
performed on a popped child (`Freq` and `TotalHops` are untouched). -/
def setChild (nd : Node) (p s : Int) : Node :=
  { parentIndex := p, siblingIndex := s, totalHops := nd.totalHops,
    freq := nd.freq }

/-- The pop loop inside Go's `combine` closure: pop up to `rem` more children
(stopping early if the heap empties), point each at `parentIdx`, record its
pop position as its sibling index, and accumulate `Freq` and `TotalHops`. -/
def popLoop (parentIdx : Nat) : Nat → Nat → List Node → List Nat → Int → Int →
    List Node × List Nat × Int × Int
  | 0, _, ns, h, f, th => (ns, h, f, th)
  | rem + 1, i, ns, h, f, th =>
    if h.isEmpty then (ns, h, f, th)
    else
      let c := (heapPop (ltv ns) h).1
      let h1 := (heapPop (ltv ns) h).2
      let child := nodeAt ns c
      let ns1 := ns.set c (setChild child (parentIdx : Int) (i : Int))
      popLoop parentIdx rem (i + 1) ns1 h1 (goAdd f child.freq)
        (goAdd th child.totalHops)

/-- Go's `combine(numChildren)`: pop up to `numChildren` lowest-frequency
nodes, write the fresh parent node into slot `nextNodeIdx`, and push it. -/
def combine (numChildren : Nat) (st : BuildState) : BuildState :=
  let parentIdx := st.next
  let r := popLoop parentIdx numChildren 0 st.nodes st.hp 0 0
  let ns1 := r.1.set parentIdx
    { parentIndex := -1, siblingIndex := -1, freq := r.2.2.1,
      totalHops := goAdd r.2.2.2 (numChildren : Int) }
  { nodes := ns1, hp := heapPush (ltv ns1) r.2.1 parentIdx, next := st.next + 1 }

/-- The main loop `for len(nodeHeap) > 1 { combine(base) }`.  Each combine
shrinks the heap, so fuel = initial item count suffices. -/
def buildLoop (base : Nat) : Nat → BuildState → BuildState
  | 0, st => st
  | fuel + 1, st =>
    if 1 < st.hp.length then buildLoop base fuel (combine base st) else st

/-- `numIters` of the source: `(C-1)/(base-1) + 1` with floor division. -/
def numIters (b C : Nat) : Nat := (C - 1) / (b - 1) + 1

/-- `numNodes` of the source: pool size `C + numIters`. -/
def numNodesOf (b C : Nat) : Nat := C + numIters b C

/-- The first combine's child count: `2 + (len(nodeHeap)-2) % (base-1)` with
`len(nodeHeap) = C`. -/
def initialCount (b C : Nat) : Nat := 2 + (C - 2) % (b - 1)

/-- A leaf node for one input frequency. -/
def leafNode (f : Int) : Node :=
  { parentIndex := -1, siblingIndex := -1, totalHops := 0, freq := f }

/-- Tree construction for `2 ≤ C` items: allocate the pool, heapify the
leaves, do the first combine with `initialCount` children (the source guards
`initial > 0`, which always holds), then combine `base` at a time. -/
def buildTree (b : Nat) (freqs : List Int) : BuildState :=
  let C := freqs.length
  let nodes0 := freqs.map leafNode ++ List.replicate (numIters b C) zeroNode
  let st0 : BuildState :=
    { nodes := nodes0, hp := heapInit (ltv nodes0) (List.range C), next := C }
  let st1 := if 0 < initialCount b C then combine (initialCount b C) st0 else st0
  buildLoop b C st1

/-- The label-extraction walk: follow parent links from a node to the root,
collecting sibling indices (leaf-to-root order).  Parent indices strictly
increase along any reachable chain, so fuel = pool size suffices. -/
def walkUp (ns : List Node) : Nat → Node → List Int
  | 0, _ => []
  | fuel + 1, c =>
    if c.parentIndex = -1 then []
    else c.siblingIndex :: walkUp ns fuel (nodeAt ns c.parentIndex.toNat)

/-- `Label` of `huffman.go`.  `none` models the `panic` on `base < 2`; for
`base ≥ 2` the Go function always returns normally.  Labels are the reversed
walks of the first `len(freqs)` pool slots, as in the source. -/
def Label (base : Int) (freqs : List Int) : Option (List (List Int)) :=
  if base < 2 then none
  else
    match freqs with
    | [] => some []
    | [_] => some [[0]]
    | _ =>
      let st := buildTree base.toNat freqs
      some ((List.range freqs.length).map fun i =>
        (walkUp st.nodes st.nodes.length (nodeAt st.nodes i)).reverse)

/-- `Pfx a b`: `a` is a (not necessarily proper) prefix of `b`. -/
def Pfx (a b : List Int) : Prop := b.take a.length = a

instance (a b : List Int) : Decidable (Pfx a b) := by
  unfold Pfx; infer_instance

/-- Number of children of pool slot `p`: how many pool slots name `p` as their
parent. -/
def childCount (ns : List Node) (p : Nat) : Nat :=
  (List.range ns.length).countP fun i => (nodeAt ns i).parentIndex == (p : Int)

/-- Root-to-leaf reformulation of the label walk, used only in proofs:
`labelF ns fuel i` is the label of pool slot `i` built top-down, equal to
`(walkUp ns fuel (nodeAt ns i)).reverse`. -/
def labelF (ns : List Node) : Nat → Nat → List Int
  | 0, _ => []
  | fuel + 1, i =>
    if (nodeAt ns i).parentIndex = -1 then []
    else labelF ns fuel (nodeAt ns i).parentIndex.toNat ++
      [(nodeAt ns i).siblingIndex]

/-- The tree-construction invariant, for `b = base`, `C = len(freqs)`,
`N = numNodes` and `n₀` = the first combine's child count:
the heap holds exactly the root slots (all below `nextNodeIdx`, pairwise
distinct); parent links of combined slots point strictly upwards into
`[C, nextNodeIdx)`; sibling indices of combined slots lie in `[0, b)` and are
injective per parent; slots at or above `nextNodeIdx` are still zero; the
first internal slot `C` has `n₀` children and all later ones have `b`. -/
structure Inv (b C N n₀ : Nat) (freqs : List Int) (st : BuildState) : Prop where
  hlen : st.nodes.length = N
  next_ge : C ≤ st.next
  next_le : st.next ≤ N
  hp_ne : st.hp ≠ []
  nodup : st.hp.Nodup
  hp_lt : ∀ x ∈ st.hp, x < st.next
  hp_single : st.hp.length = 1 → ∀ x ∈ st.hp, C ≤ x
  unwritten : ∀ i, st.next ≤ i → nodeAt st.nodes i = zeroNode
  root_iff : ∀ i, i < st.next →
    ((nodeAt st.nodes i).parentIndex = -1 ↔ i ∈ st.hp)
  parent_spec : ∀ i, i < st.next → (nodeAt st.nodes i).parentIndex ≠ -1 →
    ∃ p : Nat, (nodeAt st.nodes i).parentIndex = (p : Int) ∧
      i < p ∧ C ≤ p ∧ p < st.next
  sib_spec : ∀ i, i < st.next → (nodeAt st.nodes i).parentIndex ≠ -1 →
    ∃ s : Nat, (nodeAt st.nodes i).siblingIndex = (s : Int) ∧ s < b
  sib_inj : ∀ i j, i < st.next → j < st.next →
    (nodeAt st.nodes i).parentIndex ≠ -1 →
    (nodeAt st.nodes i).parentIndex = (nodeAt st.nodes j).parentIndex →
    (nodeAt st.nodes i).siblingIndex = (nodeAt st.nodes j).siblingIndex →
    i = j
  cc_first : C < st.next → childCount st.nodes C = n₀
  cc_rest : ∀ p, C < p → p < st.next → childCount st.nodes p = b
  leaf_freq : ∀ i, i < C → (nodeAt st.nodes i).freq = freqs.getD i 0

/-- The frequency list on which integer overflow breaks the frequency /
label-length monotonicity: item 0 is the unique minimum (`-2^63 + 1`) and
item 3 the unique maximum (`2^62 + 1`), but the first combine's sum
`(-2^63 + 1) + (-2)` wraps around to `2^63 - 1`, so item 0's subtree floats
to the top of the tree. -/
def c5Freqs : List Int :=
  [-9223372036854775807, 4611686018427387903, -2, 4611686018427387905, 5,
    4611686018427387904]

/-! ### Permutation facts about the heap operations

Every heap operation is a sequence of in-range swaps plus one append or one
removal, so the heap contents evolve as a multiset: `Init` permutes, `Push`
adds the new element, `Pop` removes the returned element. -/

theorem getElem_cons_set_perm :
    ∀ (t : List Nat) (m : Nat) (hm : m < t.length) (a : Nat),
      List.Perm (t[m] :: t.set m a) (a :: t) := by
  intro t
  induction t with
  | nil => intro m hm; simp at hm
  | cons b t ih =>
    intro m hm a
    match m with
    | 0 => simpa using List.Perm.swap a b t
    | k + 1 =>
      have hk : k < t.length := by simpa using hm
      have h1 : List.Perm (t[k] :: b :: t.set k a) (b :: t[k] :: t.set k a) :=
        List.Perm.swap b (t[k]) (t.set k a)
      have h2 : List.Perm (b :: t[k] :: t.set k a) (b :: (a :: t)) :=
        List.Perm.cons b (ih k hk a)
      have h3 : List.Perm (b :: a :: t) (a :: b :: t) := List.Perm.swap a b t
      simpa using (h1.trans h2).trans h3

theorem set_set_swap_perm :
    ∀ (h : List Nat) (i j : Nat) (hi : i < h.length) (hj : j < h.length),
      List.Perm ((h.set i h[j]).set j h[i]) h := by
  intro h
  induction h with
  | nil => intro i j hi; simp at hi
  | cons a t ih =>
    intro i j hi hj
    match i, j with
    | 0, 0 => simp
    | 0, m + 1 =>
      have hm : m < t.length := by simpa using hj
      have : ((a :: t).set 0 (a :: t)[m + 1]).set (m + 1) (a :: t)[0] =
          t[m] :: t.set m a := by simp
      rw [this]
      exact getElem_cons_set_perm t m hm a
    | k + 1, 0 =>
      have hk : k < t.length := by simpa using hi
      have : (((a :: t).set (k + 1) (a :: t)[0]).set 0 (a :: t)[k + 1]) =
          t[k] :: t.set k a := by simp
      rw [this]
      exact getElem_cons_set_perm t k hk a
    | k + 1, m + 1 =>
      have hk : k < t.length := by simpa using hi
      have hm : m < t.length := by simpa using hj
      have : ((a :: t).set (k + 1) (a :: t)[m + 1]).set (m + 1) (a :: t)[k + 1] =
          a :: ((t.set k t[m]).set m t[k]) := by simp
      rw [this]
      exact List.Perm.cons a (ih k m hk hm)

theorem swapL_perm (h : List Nat) (i j : Nat) : List.Perm (swapL h i j) h := by
  unfold swapL
  split
  · split
    · next hi hj => simpa using set_set_swap_perm h i j hi hj
    · exact List.Perm.refl h
  · exact List.Perm.refl h

theorem swapL_length (h : List Nat) (i j : Nat) : (swapL h i j).length = h.length :=
  (swapL_perm h i j).length_eq

theorem siftDown_perm (lt : Nat → Nat → Bool) :
    ∀ (fuel : Nat) (h : List Nat) (i n : Nat), List.Perm (siftDown lt fuel h i n) h := by
  intro fuel
  induction fuel with
  | zero => intro h i n; exact List.Perm.refl h
  | succ fuel ih =>
    intro h i n
    unfold siftDown
    dsimp only
    repeat' split
    all_goals
      first
        | exact (ih _ _ _).trans (swapL_perm h _ _)
        | exact List.Perm.refl h

theorem siftUp_perm (lt : Nat → Nat → Bool) :
    ∀ (fuel : Nat) (h : List Nat) (j : Nat), List.Perm (siftUp lt fuel h j) h := by
  intro fuel
  induction fuel with
  | zero => intro h j; exact List.Perm.refl h
  | succ fuel ih =>
    intro h j
    unfold siftUp
    dsimp only
    repeat' split
    all_goals
      first
        | exact (ih _ _).trans (swapL_perm h _ _)
        | exact List.Perm.refl h

theorem heapInit_perm (lt : Nat → Nat → Bool) (h : List Nat) :
    List.Perm (heapInit lt h) h := by
  unfold heapInit
  generalize (List.range (h.length / 2)).reverse = l
  generalize h.length = n
  induction l generalizing h with
  | nil => exact List.Perm.refl h
  | cons x l ih =>
    have step : List.Perm (siftDown lt n h x n) h := siftDown_perm lt n h x n
    simpa using (ih (siftDown lt n h x n)).trans step

theorem heapPush_perm (lt : Nat → Nat → Bool) (h : List Nat) (x : Nat) :
    List.Perm (heapPush lt h x) (x :: h) := by
  unfold heapPush
  exact (siftUp_perm lt _ _ _).trans (List.perm_append_singleton x h)

theorem heapPop_spec (lt : Nat → Nat → Bool) (h : List Nat) (hne : h ≠ []) :
    List.Perm ((heapPop lt h).1 :: (heapPop lt h).2) h := by
  unfold heapPop
  have hlen : 0 < h.length := List.length_pos.mpr hne
  set n := h.length - 1 with hn
  have hperm : List.Perm (siftDown lt h.length (swapL h 0 n) 0 n) h :=
    (siftDown_perm lt _ _ _ _).trans (swapL_perm h 0 n)
  set h2 := siftDown lt h.length (swapL h 0 n) 0 n with hh2
  have hlen2 : h2.length = h.length := hperm.length_eq
  have hnlt : n < h2.length := by omega
  have hget : hGet h2 n = h2[n] := List.getD_eq_getElem h2 0 hnlt
  have hdec : h2.take n ++ [h2[n]] = h2 := by
    have hdrop : h2.drop n = [h2[n]] := by
      have := List.drop_eq_getElem_cons hnlt
      have hdrop1 : h2.drop (n + 1) = [] := by
        apply List.drop_eq_nil_of_le
        omega
      rw [this, hdrop1]
    calc h2.take n ++ [h2[n]] = h2.take n ++ h2.drop n := by rw [hdrop]
      _ = h2 := List.take_append_drop n h2
  have : List.Perm (h2[n] :: h2.take n) h2 := by
    calc List.Perm (h2[n] :: h2.take n) (h2.take n ++ [h2[n]]) :=
          (List.perm_append_singleton _ _).symm
      _ = h2 := hdec
  simpa [hget] using this.trans hperm

/-! ### Node-pool read/write lemmas -/

theorem nodeAt_set_self (ns : List Node) (c : Nat) (v : Node) (h : c < ns.length) :
    nodeAt (ns.set c v) c = v := by
  unfold nodeAt
  rw [List.getD_eq_getElem _ _ (by simpa using h)]
  exact List.getElem_set_self _

theorem nodeAt_set_ne (ns : List Node) (c : Nat) (v : Node) (k : Nat)
    (h : k ≠ c) : nodeAt (ns.set c v) k = nodeAt ns k := by
  unfold nodeAt
  by_cases hk : k < ns.length
  · rw [List.getD_eq_getElem _ _ (by simpa using hk),
      List.getD_eq_getElem _ _ hk]
    exact List.getElem_set_ne (fun he => h he.symm) _
  · rw [List.getD_eq_default _ _ (by simpa using Nat.le_of_not_lt hk),
      List.getD_eq_default _ _ (Nat.le_of_not_lt hk)]

/-! ### The pop-loop specification

`popLoop` pops `min rem h.length` elements; they leave the heap as a
multiset, and each popped slot is rewritten to point at `parentIdx` with its
pop position as sibling index.  Everything else is untouched. -/

theorem popLoop_spec (parentIdx : Nat) :
    ∀ (rem i : Nat) (ns : List Node) (h : List Nat) (f th : Int),
      h.Nodup → (∀ x ∈ h, x < ns.length) →
      ∃ P : List Nat,
        P.length = min rem h.length ∧
        List.Perm (P ++ (popLoop parentIdx rem i ns h f th).2.1) h ∧
        (popLoop parentIdx rem i ns h f th).1.length = ns.length ∧
        (∀ k, k ∉ P →
          nodeAt (popLoop parentIdx rem i ns h f th).1 k = nodeAt ns k) ∧
        (∀ j, (hj : j < P.length) →
          nodeAt (popLoop parentIdx rem i ns h f th).1 (P.get ⟨j, hj⟩) =
            setChild (nodeAt ns (P.get ⟨j, hj⟩)) (parentIdx : Int)
              ((i + j : Nat) : Int)) := by
  intro rem
  induction rem with
  | zero =>
    intro i ns h f th _ _
    exact ⟨[], by simp, List.Perm.refl h, rfl, fun k _ => rfl,
      fun j hj => by simp at hj⟩
  | succ rem ih =>
    intro i ns h f th hnd hlt
    by_cases hne : h.isEmpty
    · have h0 : h = [] := List.isEmpty_iff.mp hne
      subst h0
      have hred : popLoop parentIdx (rem + 1) i ns [] f th = (ns, [], f, th) := by
        unfold popLoop
        rfl
      rw [hred]
      exact ⟨[], by simp, List.Perm.refl [], rfl, fun k _ => rfl,
        fun j hj => by simp at hj⟩
    · have hcons : popLoop parentIdx (rem + 1) i ns h f th =
          popLoop parentIdx rem (i + 1)
            (ns.set (heapPop (ltv ns) h).1
              (setChild (nodeAt ns (heapPop (ltv ns) h).1) (parentIdx : Int)
                (i : Int)))
            (heapPop (ltv ns) h).2
            (goAdd f (nodeAt ns (heapPop (ltv ns) h).1).freq)
            (goAdd th (nodeAt ns (heapPop (ltv ns) h).1).totalHops) := by
        conv_lhs => unfold popLoop
        rw [if_neg hne]
      have hne' : h ≠ [] := by simpa using hne
      have hperm : List.Perm ((heapPop (ltv ns) h).1 :: (heapPop (ltv ns) h).2) h :=
        heapPop_spec (ltv ns) h hne'
      set c := (heapPop (ltv ns) h).1 with hc
      set h1 := (heapPop (ltv ns) h).2 with hh1
      have hcmem : c ∈ h := hperm.mem_iff.mp (List.mem_cons_self c h1)
      have hclen : c < ns.length := hlt c hcmem
      have hnd1 : (c :: h1).Nodup := hperm.symm.nodup hnd
      have hcnot : c ∉ h1 := (List.nodup_cons.mp hnd1).1
      have hnd1' : h1.Nodup := (List.nodup_cons.mp hnd1).2
      set ns1 := ns.set c (setChild (nodeAt ns c) (parentIdx : Int) (i : Int))
        with hns1
      have hlt1 : ∀ x ∈ h1, x < ns1.length := by
        intro x hx
        have : x ∈ h := hperm.mem_iff.mp (List.mem_cons_of_mem c hx)
        simpa [hns1] using hlt x this
      obtain ⟨P1, hP1len, hP1perm, hP1nlen, hP1un, hP1set⟩ :=
        ih (i + 1) ns1 h1 (goAdd f (nodeAt ns c).freq)
          (goAdd th (nodeAt ns c).totalHops) hnd1' hlt1
      have hsub : ∀ x ∈ P1, x ∈ h1 := fun x hx =>
        hP1perm.mem_iff.mp (List.mem_append_left _ hx)
      have hlen1 : h1.length + 1 = h.length := by
        have := hperm.length_eq
        simpa using this
      refine ⟨c :: P1, ?_, ?_, ?_, ?_, ?_⟩
      · simp only [List.length_cons, hP1len]
        omega
      · rw [hcons]
        exact (List.Perm.cons c hP1perm).trans hperm
      · rw [hcons]
        rw [hP1nlen, hns1, List.length_set]
      · intro k hk
        rw [hcons]
        have hk1 : k ∉ P1 := fun hm => hk (List.mem_cons_of_mem c hm)
        have hkc : k ≠ c := fun he => hk (he ▸ List.mem_cons_self c P1)
        rw [hP1un k hk1]
        exact nodeAt_set_ne ns c _ k hkc
      · intro j hj
        rw [hcons]
        match j with
        | 0 =>
          have hc1 : c ∉ P1 := fun hm => hcnot (hsub c hm)
          have hun := hP1un c hc1
          have hself : nodeAt ns1 c =
              setChild (nodeAt ns c) (parentIdx : Int) (i : Int) :=
            nodeAt_set_self ns c _ hclen
          show nodeAt (popLoop parentIdx rem (i + 1) ns1 h1 _ _).1 c =
            setChild (nodeAt ns c) (parentIdx : Int) ((i + 0 : Nat) : Int)
          rw [hun, hself]
          norm_num
        | j + 1 =>
          have hj1 : j < P1.length := by simpa using hj
          have heq := hP1set j hj1
          have hget : (c :: P1).get ⟨j + 1, hj⟩ = P1.get ⟨j, hj1⟩ := rfl
          rw [hget, heq]
          have hmem : P1.get ⟨j, hj1⟩ ∈ h1 := hsub _ (P1.get_mem _ _)
          have hnec : P1.get ⟨j, hj1⟩ ≠ c := fun he => hcnot (he ▸ hmem)
          rw [nodeAt_set_ne ns c _ _ hnec]
          have harith : i + 1 + j = i + (j + 1) := by omega
          rw [harith]

/-! ### Child-count lemmas -/

theorem childCount_congr (ns ns' : List Node) (hl : ns'.length = ns.length)
    (p : Nat)
    (hpt : ∀ i, i < ns.length →
      ((nodeAt ns' i).parentIndex = (p : Int) ↔
        (nodeAt ns i).parentIndex = (p : Int))) :
    childCount ns' p = childCount ns p := by
  unfold childCount
  rw [hl]
  apply List.countP_congr
  intro x hx
  have hxr : x < ns.length := List.mem_range.mp hx
  simpa [beq_iff_eq] using hpt x hxr

theorem childCount_eq_length (ns : List Node) (p : Nat) (P : List Nat)
    (hnd : P.Nodup)
    (hmem : ∀ i, ((nodeAt ns i).parentIndex = (p : Int) ∧ i < ns.length) ↔
      i ∈ P) :
    childCount ns p = P.length := by
  unfold childCount
  rw [List.countP_eq_length_filter]
  apply List.Perm.length_eq
  apply (List.perm_ext_iff_of_nodup
    (List.Nodup.filter _ (List.nodup_range _)) hnd).mpr
  intro a
  constructor
  · intro ha
    have := List.mem_filter.mp ha
    exact (hmem a).mp ⟨by simpa [beq_iff_eq] using this.2,
      List.mem_range.mp this.1⟩
  · intro ha
    have := (hmem a).mpr ha
    exact List.mem_filter.mpr ⟨List.mem_range.mpr this.2,
      by simpa [beq_iff_eq] using this.1⟩

/-! ### Invariant preservation through one combine -/

theorem combine_inv (b C N n₀ n : Nat) (freqs : List Int) (st : BuildState)
    (inv : Inv b C N n₀ freqs st)
    (hn2 : 2 ≤ n) (hnb : n ≤ b) (hnlen : n ≤ st.hp.length)
    (hnext : st.next < N)
    (hfirst : st.next = C → n = n₀)
    (hrest : C < st.next → n = b)
    (hC2 : 2 ≤ C) :
    Inv b C N n₀ freqs (combine n st) ∧
    (combine n st).next = st.next + 1 ∧
    (combine n st).hp.length + n = st.hp.length + 1 := by
  have hN : st.nodes.length = N := inv.hlen
  have hlt0 : ∀ x ∈ st.hp, x < st.nodes.length := fun x hx => by
    have := inv.hp_lt x hx
    omega
  obtain ⟨P, hPlen, hPperm, hrlen, hPun, hPset⟩ :=
    popLoop_spec st.next n 0 st.nodes st.hp 0 0 inv.nodup hlt0
  set r := popLoop st.next n 0 st.nodes st.hp 0 0 with hr
  have hPn : P.length = n := by rw [hPlen]; omega
  have hPmem : ∀ x ∈ P, x ∈ st.hp := fun x hx =>
    hPperm.mem_iff.mp (List.mem_append_left _ hx)
  have hPlt : ∀ x ∈ P, x < st.next := fun x hx => inv.hp_lt x (hPmem x hx)
  have hPR : (P ++ r.2.1).Nodup := hPperm.symm.nodup inv.nodup
  have hPnd : P.Nodup := (List.nodup_append.mp hPR).1
  have hRnd : r.2.1.Nodup := (List.nodup_append.mp hPR).2.1
  have hdisj : ∀ x ∈ P, x ∉ r.2.1 := fun x hx =>
    (List.nodup_append.mp hPR).2.2 hx
  have hRmem : ∀ x ∈ r.2.1, x ∈ st.hp := fun x hx =>
    hPperm.mem_iff.mp (List.mem_append_right _ hx)
  have hRlt : ∀ x ∈ r.2.1, x < st.next := fun x hx => inv.hp_lt x (hRmem x hx)
  have hRnotP : ∀ x ∈ r.2.1, x ∉ P := fun x hx hp => hdisj x hp hx
  have hRlen : r.2.1.length + n = st.hp.length := by
    have := hPperm.length_eq
    rw [List.length_append, hPn] at this
    omega
  have hr1len : r.1.length = N := by rw [hrlen]; exact hN
  have hnextlt : st.next < r.1.length := by omega
  set newNode : Node := ⟨-1, -1, goAdd r.2.2.2 (n : Int), r.2.2.1⟩ with hnew
  set ns1 := r.1.set st.next newNode with hns1
  have hcomb : combine n st =
      { nodes := ns1, hp := heapPush (ltv ns1) r.2.1 st.next,
        next := st.next + 1 } := rfl
  have hns1len : ns1.length = N := by rw [hns1, List.length_set]; exact hr1len
  have hnewAt : nodeAt ns1 st.next = newNode :=
    nodeAt_set_self r.1 st.next newNode hnextlt
  have holdAt : ∀ k, k ≠ st.next → k ∉ P → nodeAt ns1 k = nodeAt st.nodes k := by
    intro k hk hkP
    rw [hns1, nodeAt_set_ne r.1 st.next newNode k hk]
    exact hPun k hkP
  have hchildAt : ∀ j, (hj : j < P.length) →
      nodeAt ns1 (P.get ⟨j, hj⟩) =
        setChild (nodeAt st.nodes (P.get ⟨j, hj⟩)) (st.next : Int) (j : Int) := by
    intro j hj
    have hne : P.get ⟨j, hj⟩ ≠ st.next := by
      have := hPlt _ (P.get_mem j hj)
      omega
    rw [hns1, nodeAt_set_ne r.1 st.next newNode _ hne]
    have := hPset j hj
    simpa using this
  have hchildMem : ∀ k ∈ P, ∃ j : Fin P.length,
      P.get j = k ∧ nodeAt ns1 k =
        setChild (nodeAt st.nodes k) (st.next : Int) ((j : Nat) : Int) := by
    intro k hk
    obtain ⟨j, hjk⟩ := List.mem_iff_get.mp hk
    exact ⟨j, hjk, by rw [← hjk]; exact hchildAt j j.isLt⟩
  set hp1 := heapPush (ltv ns1) r.2.1 st.next with hhp1
  have hp1perm : List.Perm hp1 (st.next :: r.2.1) := heapPush_perm _ _ _
  have hp1mem : ∀ x, x ∈ hp1 ↔ x = st.next ∨ x ∈ r.2.1 := by
    intro x
    rw [hp1perm.mem_iff]
    simp
  have hp1len : hp1.length = r.2.1.length + 1 := by
    have := hp1perm.length_eq
    simpa using this
  -- characterization of the children of the new parent
  have hPchar : ∀ i, ((nodeAt ns1 i).parentIndex = ((st.next : Nat) : Int) ∧
      i < ns1.length) ↔ i ∈ P := by
    intro i
    constructor
    · rintro ⟨hpar, hilen⟩
      by_contra hiP
      by_cases hieq : i = st.next
      · rw [hieq, hnewAt] at hpar
        simp only [hnew] at hpar
        omega
      · by_cases hilt : i < st.next
        · rw [holdAt i hieq hiP] at hpar
          by_cases hroot : (nodeAt st.nodes i).parentIndex = -1
          · rw [hroot] at hpar; omega
          · obtain ⟨p, hp, _, _, hplt⟩ := inv.parent_spec i hilt hroot
            rw [hp] at hpar
            have : p = st.next := by exact_mod_cast hpar
            omega
        · have hge : st.next ≤ i := by omega
          have hz := inv.unwritten i hge
          have : nodeAt ns1 i = nodeAt st.nodes i := holdAt i hieq hiP
          rw [this, hz] at hpar
          rw [show zeroNode.parentIndex = 0 from rfl] at hpar
          have := inv.next_ge
          omega
    · intro hiP
      obtain ⟨j, _, hset⟩ := hchildMem i hiP
      constructor
      · rw [hset]; rfl
      · have := hPlt i hiP
        omega
  refine ⟨?_, by rw [hcomb], ?_⟩
  swap
  · rw [hcomb]; dsimp only
    simp only [hp1len]
    omega
  constructor
  case hlen => rw [hcomb]; dsimp only; exact hns1len
  case next_ge => rw [hcomb]; dsimp only; have := inv.next_ge; omega
  case next_le => rw [hcomb]; dsimp only; omega
  case hp_ne =>
    rw [hcomb]; dsimp only
    have : hp1.length ≠ 0 := by omega
    intro hnil
    exact this (by rw [hnil]; rfl)
  case nodup =>
    rw [hcomb]; dsimp only
    apply hp1perm.symm.nodup
    exact List.nodup_cons.mpr ⟨fun hmem => by have := hRlt _ hmem; omega, hRnd⟩
  case hp_lt =>
    rw [hcomb]; dsimp only
    intro x hx
    rcases (hp1mem x).mp hx with hx1 | hx2
    · omega
    · have := hRlt x hx2; omega
  case hp_single =>
    rw [hcomb]; dsimp only
    intro hlen1 x hx
    have hr0 : r.2.1.length = 0 := by omega
    rcases (hp1mem x).mp hx with hx1 | hx2
    · have := inv.next_ge; omega
    · rw [List.length_eq_zero.mp hr0] at hx2
      simp at hx2
  case unwritten =>
    rw [hcomb]; dsimp only
    intro i hi
    have hieq : i ≠ st.next := by omega
    have hiP : i ∉ P := fun hm => by have := hPlt i hm; omega
    rw [holdAt i hieq hiP]
    exact inv.unwritten i (by omega)
  case root_iff =>
    rw [hcomb]; dsimp only
    intro i hi
    by_cases hieq : i = st.next
    · subst hieq
      constructor
      · intro _
        exact (hp1mem st.next).mpr (Or.inl rfl)
      · intro _
        rw [hnewAt]
    · have hilt : i < st.next := by omega
      rw [hp1mem i]
      by_cases hiP : i ∈ P
      · obtain ⟨j, _, hset⟩ := hchildMem i hiP
        rw [hset]
        constructor
        · intro hpar
          exfalso
          simp only [setChild] at hpar
          omega
        · rintro (h1 | h2)
          · exact absurd h1 hieq
          · exact absurd hiP (hRnotP i h2)
      · rw [holdAt i hieq hiP]
        rw [inv.root_iff i hilt]
        have hsplit : i ∈ st.hp ↔ i ∈ r.2.1 := by
          rw [← hPperm.mem_iff]
          simp only [List.mem_append]
          exact ⟨fun h => h.resolve_left hiP, Or.inr⟩
        rw [hsplit]
        exact ⟨Or.inr, fun h => h.resolve_left hieq⟩
  case parent_spec =>
    rw [hcomb]; dsimp only
    intro i hi hpar
    by_cases hieq : i = st.next
    · subst hieq
      rw [hnewAt] at hpar
      exact absurd rfl hpar
    · have hilt : i < st.next := by omega
      by_cases hiP : i ∈ P
      · obtain ⟨j, _, hset⟩ := hchildMem i hiP
        rw [hset]
        refine ⟨st.next, rfl, hPlt i hiP, inv.next_ge, by omega⟩
      · rw [holdAt i hieq hiP] at hpar ⊢
        obtain ⟨p, hp, h1, h2, h3⟩ := inv.parent_spec i hilt hpar
        exact ⟨p, hp, h1, h2, by omega⟩
  case sib_spec =>
    rw [hcomb]; dsimp only
    intro i hi hpar
    by_cases hieq : i = st.next
    · subst hieq
      rw [hnewAt] at hpar
      exact absurd rfl hpar
    · have hilt : i < st.next := by omega
      by_cases hiP : i ∈ P
      · obtain ⟨j, _, hset⟩ := hchildMem i hiP
        rw [hset]
        refine ⟨(j : Nat), rfl, ?_⟩
        have := j.isLt
        omega
      · rw [holdAt i hieq hiP] at hpar ⊢
        exact inv.sib_spec i hilt hpar
  case sib_inj =>
    rw [hcomb]; dsimp only
    intro i j hi hj hpari hpeq hseq
    by_cases hieq : i = st.next
    · subst hieq; rw [hnewAt] at hpari; exact absurd rfl hpari
    · by_cases hjeq : j = st.next
      · subst hjeq
        rw [hnewAt] at hpeq
        rw [hpeq] at hpari
        exact absurd rfl hpari
      · have hilt : i < st.next := by omega
        have hjlt : j < st.next := by omega
        by_cases hiP : i ∈ P
        · obtain ⟨ji, hgi, hseti⟩ := hchildMem i hiP
          by_cases hjP : j ∈ P
          · obtain ⟨jj, hgj, hsetj⟩ := hchildMem j hjP
            rw [hseti, hsetj] at hseq
            simp only [setChild] at hseq
            have : (ji : Nat) = (jj : Nat) := by exact_mod_cast hseq
            rw [← hgi, ← hgj]
            congr 1
            exact Fin.ext this
          · exfalso
            rw [hseti] at hpeq
            rw [holdAt j hjeq hjP] at hpeq
            simp only [setChild] at hpeq
            have hparj : (nodeAt st.nodes j).parentIndex ≠ -1 := by
              rw [← hpeq]; omega
            obtain ⟨p, hp, _, _, hplt⟩ := inv.parent_spec j hjlt hparj
            rw [hp] at hpeq
            have : st.next = p := by exact_mod_cast hpeq
            omega
        · by_cases hjP : j ∈ P
          · exfalso
            obtain ⟨jj, hgj, hsetj⟩ := hchildMem j hjP
            rw [hsetj] at hpeq
            rw [holdAt i hieq hiP] at hpeq hpari
            simp only [setChild] at hpeq
            obtain ⟨p, hp, _, _, hplt⟩ := inv.parent_spec i hilt hpari
            rw [hp] at hpeq
            have : p = st.next := by exact_mod_cast hpeq
            omega
          · rw [holdAt i hieq hiP] at hpari hpeq hseq
            rw [holdAt j hjeq hjP] at hpeq hseq
            exact inv.sib_inj i j hilt hjlt hpari hpeq hseq
  case cc_first =>
    rw [hcomb]; dsimp only
    intro _
    by_cases hCeq : st.next = C
    · have hcc : childCount ns1 C = P.length := by
        apply childCount_eq_length
        · exact hPnd
        · intro i
          rw [← hCeq]
          exact hPchar i
      rw [hcc, hPn]
      exact hfirst hCeq
    · have hClt : C < st.next := by
        have := inv.next_ge
        omega
      have hcc : childCount ns1 C = childCount st.nodes C := by
        apply childCount_congr _ _ (by omega) C
        intro i hilen
        by_cases hieq : i = st.next
        · subst hieq
          rw [hnewAt]
          have hz := inv.unwritten st.next (le_refl _)
          rw [hz]
          simp only [hnew, zeroNode]
          constructor <;> (intro h; omega)
        · by_cases hiP : i ∈ P
          · obtain ⟨j, _, hset⟩ := hchildMem i hiP
            rw [hset]
            have hroot : (nodeAt st.nodes i).parentIndex = -1 :=
              (inv.root_iff i (hPlt i hiP)).mpr (hPmem i hiP)
            rw [hroot]
            simp only [setChild]
            constructor <;> (intro h; omega)
          · rw [holdAt i hieq hiP]
      rw [hcc]
      exact inv.cc_first hClt
  case cc_rest =>
    rw [hcomb]; dsimp only
    intro p hp1' hp2'
    by_cases hpeq : p = st.next
    · have hClt : C < st.next := by omega
      have hcc : childCount ns1 p = P.length := by
        apply childCount_eq_length
        · exact hPnd
        · intro i
          rw [hpeq]
          exact hPchar i
      rw [hcc, hPn]
      exact hrest hClt
    · have hplt : p < st.next := by omega
      have hcc : childCount ns1 p = childCount st.nodes p := by
        apply childCount_congr _ _ (by omega) p
        intro i hilen
        by_cases hieq : i = st.next
        · subst hieq
          rw [hnewAt]
          have hz := inv.unwritten st.next (le_refl _)
          rw [hz]
          simp only [hnew, zeroNode]
          constructor <;> (intro h; omega)
        · by_cases hiP : i ∈ P
          · obtain ⟨j, _, hset⟩ := hchildMem i hiP
            rw [hset]
            have hroot : (nodeAt st.nodes i).parentIndex = -1 :=
              (inv.root_iff i (hPlt i hiP)).mpr (hPmem i hiP)
            rw [hroot]
            simp only [setChild]
            constructor <;> (intro h; omega)
          · rw [holdAt i hieq hiP]
      rw [hcc]
      exact inv.cc_rest p hp1' hplt
  case leaf_freq =>
    rw [hcomb]; dsimp only
    intro i hiC
    have hiner : i ≠ st.next := by
      have := inv.next_ge
      omega
    by_cases hiP : i ∈ P
    · obtain ⟨j, _, hset⟩ := hchildMem i hiP
      rw [hset]
      rw [show (setChild (nodeAt st.nodes i) ((st.next : Nat) : Int)
        (((j : Nat) : Nat) : Int)).freq = (nodeAt st.nodes i).freq from rfl]
      exact inv.leaf_freq i hiC
    · rw [holdAt i hiner hiP]
      exact inv.leaf_freq i hiC

/-! ### The initial state -/

theorem nodeAt_init_lt (freqs : List Int) (m : Nat) (i : Nat)
    (hi : i < freqs.length) :
    nodeAt (freqs.map leafNode ++ List.replicate m zeroNode) i =
      leafNode (freqs.getD i 0) := by
  unfold nodeAt
  have hlt : i < (freqs.map leafNode).length := by simpa using hi
  rw [List.getD_append _ _ _ _ hlt, List.getD_eq_getElem _ _ hlt,
    List.getElem_map, List.getD_eq_getElem _ _ hi]

theorem nodeAt_init_ge (freqs : List Int) (m : Nat) (i : Nat)
    (hi : freqs.length ≤ i) :
    nodeAt (freqs.map leafNode ++ List.replicate m zeroNode) i = zeroNode := by
  unfold nodeAt
  have hge : (freqs.map leafNode).length ≤ i := by simpa using hi
  rw [List.getD_append_right _ _ _ _ hge]
  by_cases hlt : i - (freqs.map leafNode).length < m
  · rw [List.getD_eq_getElem _ _ (by simpa using hlt)]
    simp
  · rw [List.getD_eq_default _ _ (by simpa using Nat.le_of_not_lt hlt)]

theorem init_inv (b : Nat) (freqs : List Int) (hC : 2 ≤ freqs.length)
    (n₀ : Nat) :
    Inv b freqs.length (numNodesOf b freqs.length) n₀ freqs
      { nodes := freqs.map leafNode ++
          List.replicate (numIters b freqs.length) zeroNode,
        hp := heapInit
          (ltv (freqs.map leafNode ++
            List.replicate (numIters b freqs.length) zeroNode))
          (List.range freqs.length),
        next := freqs.length } := by
  set C := freqs.length with hCdef
  set nodes0 := freqs.map leafNode ++ List.replicate (numIters b C) zeroNode
    with hnodes0
  set hp0 := heapInit (ltv nodes0) (List.range C) with hhp0
  have hperm : List.Perm hp0 (List.range C) := heapInit_perm _ _
  have hp0mem : ∀ x, x ∈ hp0 ↔ x < C := by
    intro x
    rw [hperm.mem_iff, List.mem_range]
  have hp0len : hp0.length = C := by
    have := hperm.length_eq
    simpa using this
  have hleaf : ∀ i, i < C → nodeAt nodes0 i = leafNode (freqs.getD i 0) :=
    fun i hi => nodeAt_init_lt freqs _ i hi
  constructor
  case hlen => simp [hnodes0, numNodesOf]
  case next_ge => exact le_refl _
  case next_le => simp [numNodesOf]
  case hp_ne =>
    intro hnil
    have hnil' : hp0 = [] := hnil
    rw [hnil'] at hp0len
    simp at hp0len
    omega
  case nodup => exact hperm.symm.nodup (List.nodup_range C)
  case hp_lt => exact fun x hx => (hp0mem x).mp hx
  case hp_single => intro h1; rw [hp0len] at h1; omega
  case unwritten => exact fun i hi => nodeAt_init_ge freqs _ i hi
  case root_iff =>
    intro i hi
    rw [hleaf i hi]
    constructor
    · intro _; exact (hp0mem i).mpr hi
    · intro _; rfl
  case parent_spec =>
    intro i hi hpar
    rw [hleaf i hi] at hpar
    exact absurd rfl hpar
  case sib_spec =>
    intro i hi hpar
    rw [hleaf i hi] at hpar
    exact absurd rfl hpar
  case sib_inj =>
    intro i j hi hj hpar _ _
    rw [hleaf i hi] at hpar
    exact absurd rfl hpar
  case cc_first =>
    intro h
    have h' : C < C := h
    omega
  case cc_rest =>
    intro p h1 h2
    have h1' : C < p := h1
    have h2' : p < C := h2
    omega
  case leaf_freq =>
    intro i hi
    rw [hleaf i hi]
    rfl

/-! ### The main loop -/

theorem buildLoop_zero (base : Nat) (st : BuildState) :
    buildLoop base 0 st = st := rfl

theorem buildLoop_succ (base fuel : Nat) (st : BuildState) :
    buildLoop base (fuel + 1) st =
      if 1 < st.hp.length then buildLoop base fuel (combine base st) else st :=
  rfl

theorem buildLoop_inv (b C N n₀ : Nat) (freqs : List Int) (hb : 2 ≤ b)
    (hC2 : 2 ≤ C)
    (hn₀2 : 2 ≤ n₀) (hn₀C : n₀ ≤ C) (q : Nat) (hq : C - n₀ = (b - 1) * q)
    (hqd : q * (b - 1) ≤ C - 1)
    (hN : N = numNodesOf b C) :
    ∀ (fuel : Nat) (st : BuildState) (k : Nat),
      Inv b C N n₀ freqs st →
      st.next = C + 1 + k →
      st.hp.length + k * (b - 1) = C + 1 - n₀ →
      st.hp.length ≤ fuel + 1 →
      Inv b C N n₀ freqs (buildLoop b fuel st) ∧
      (buildLoop b fuel st).hp.length = 1 ∧
      (buildLoop b fuel st).next = C + 1 + q := by
  intro fuel
  induction fuel with
  | zero =>
    intro st k inv hnext hacc hfuel
    have hne : st.hp.length ≠ 0 := fun h =>
      inv.hp_ne (List.length_eq_zero.mp h)
    have hlen1 : st.hp.length = 1 := by omega
    have hkq : k = q := by
      have h1 : k * (b - 1) = (b - 1) * q := by omega
      have h2 : k * (b - 1) = q * (b - 1) := by rw [h1]; ring
      have hb1 : 0 < b - 1 := by omega
      exact Nat.eq_of_mul_eq_mul_right hb1 h2
    rw [buildLoop_zero]
    exact ⟨inv, hlen1, by omega⟩
  | succ fuel ih =>
    intro st k inv hnext hacc hfuel
    by_cases hlen : 1 < st.hp.length
    · have hkq : k < q := by
        by_contra hkq
        have hle : q ≤ k := Nat.le_of_not_lt hkq
        have h1 : q * (b - 1) ≤ k * (b - 1) := Nat.mul_le_mul_right _ hle
        have h2 : (b - 1) * q = q * (b - 1) := by ring
        omega
      have hblen : b ≤ st.hp.length := by
        have h1 : (k + 1) * (b - 1) ≤ q * (b - 1) := Nat.mul_le_mul_right _ hkq
        have h2 : (k + 1) * (b - 1) = k * (b - 1) + (b - 1) := by ring
        have h3 : (b - 1) * q = q * (b - 1) := by ring
        omega
      have hnextN : st.next < N := by
        rw [hN]
        unfold numNodesOf numIters
        have hqd2 : q ≤ (C - 1) / (b - 1) := by
          apply Nat.le_div_iff_mul_le (by omega) |>.mpr
          exact hqd
        omega
      obtain ⟨inv', hnext', hlen'⟩ :=
        combine_inv b C N n₀ b freqs st inv hb (le_refl b) hblen hnextN
          (fun h => by omega) (fun _ => rfl) hC2
      have hstep : buildLoop b (fuel + 1) st = buildLoop b fuel (combine b st) := by
        rw [buildLoop_succ, if_pos hlen]
      rw [hstep]
      apply ih (combine b st) (k + 1) inv' (by omega)
      · have h2 : (k + 1) * (b - 1) = k * (b - 1) + (b - 1) := by ring
        omega
      · omega
    · have hne : st.hp.length ≠ 0 := fun h =>
        inv.hp_ne (List.length_eq_zero.mp h)
      have hlen1 : st.hp.length = 1 := by omega
      have hkq : k = q := by
        have h1 : k * (b - 1) = (b - 1) * q := by omega
        have h2 : k * (b - 1) = q * (b - 1) := by rw [h1]; ring
        have hb1 : 0 < b - 1 := by omega
        exact Nat.eq_of_mul_eq_mul_right hb1 h2
      have hstop : buildLoop b (fuel + 1) st = st := by
        rw [buildLoop_succ, if_neg hlen]
      rw [hstop]
      exact ⟨inv, hlen1, by omega⟩

/-! ### The finished tree -/

theorem buildTree_spec (b : Nat) (freqs : List Int) (hb : 2 ≤ b)
    (hC : 2 ≤ freqs.length) :
    Inv b freqs.length (numNodesOf b freqs.length)
      (initialCount b freqs.length) freqs (buildTree b freqs) ∧
    (buildTree b freqs).hp.length = 1 ∧
    (buildTree b freqs).next =
      freqs.length + 1 + (freqs.length - 2) / (b - 1) := by
  set C := freqs.length with hCdef
  set n₀ := initialCount b C with hn₀
  set N := numNodesOf b C with hNdef
  have hb1 : 0 < b - 1 := by omega
  have hmod : (C - 2) % (b - 1) < b - 1 := Nat.mod_lt _ hb1
  have hmodle : (C - 2) % (b - 1) ≤ C - 2 := Nat.mod_le _ _
  have hn₀2 : 2 ≤ n₀ := by rw [hn₀]; unfold initialCount; omega
  have hn₀b : n₀ ≤ b := by rw [hn₀]; unfold initialCount; omega
  have hn₀C : n₀ ≤ C := by rw [hn₀]; unfold initialCount; omega
  set q := (C - 2) / (b - 1) with hqdef
  have hdm : (b - 1) * q + (C - 2) % (b - 1) = C - 2 := Nat.div_add_mod _ _
  have hq : C - n₀ = (b - 1) * q := by
    rw [hn₀]; unfold initialCount; omega
  have hqd : q * (b - 1) ≤ C - 1 := by
    have : q * (b - 1) = (b - 1) * q := by ring
    omega
  set nodes0 := freqs.map leafNode ++ List.replicate (numIters b C) zeroNode
    with hnodes0
  set st0 : BuildState :=
    { nodes := nodes0, hp := heapInit (ltv nodes0) (List.range C), next := C }
    with hst0
  have hinv0 : Inv b C N n₀ freqs st0 := init_inv b freqs hC n₀
  have hp0len : st0.hp.length = C := by
    have := (heapInit_perm (ltv nodes0) (List.range C)).length_eq
    simpa [hst0] using this
  have hn₀pos : 0 < n₀ := by omega
  have hbt : buildTree b freqs = buildLoop b C (combine n₀ st0) := by
    unfold buildTree
    dsimp only
    rw [if_pos (show 0 < initialCount b freqs.length from hn₀pos)]
  have hnextN0 : st0.next < N := by
    have h1 : st0.next = C := rfl
    have h2 : N = C + ((C - 1) / (b - 1) + 1) := by rw [hNdef]; rfl
    generalize (C - 1) / (b - 1) = w at h2
    omega
  obtain ⟨inv1, hnext1, hlen1⟩ :=
    combine_inv b C N n₀ n₀ freqs st0 hinv0 hn₀2 hn₀b
      (by rw [hp0len]; exact hn₀C)
      hnextN0 (fun _ => rfl) (fun h => by simp [hst0] at h) hC
  have hlen1' : (combine n₀ st0).hp.length = C + 1 - n₀ := by
    rw [hp0len] at hlen1
    omega
  obtain ⟨invF, hlenF, hnextF⟩ :=
    buildLoop_inv b C N n₀ freqs hb hC hn₀2 hn₀C q hq hqd hNdef C
      (combine n₀ st0) 0 inv1 (by rw [hnext1]) (by rw [hlen1']; omega)
      (by rw [hlen1']; omega)
  rw [hbt]
  exact ⟨invF, hlenF, hnextF⟩

/-! ### Prefix lemmas -/

theorem Pfx_length (a b : List Int) (h : Pfx a b) : a.length ≤ b.length := by
  unfold Pfx at h
  have := congrArg List.length h
  rw [List.length_take] at this
  omega

theorem Pfx_self (a : List Int) : Pfx a a := by
  unfold Pfx
  exact List.take_length a

theorem Pfx_nil_right (a : List Int) (h : Pfx a []) : a = [] := by
  unfold Pfx at h
  simpa using h.symm

theorem Pfx_eq_of_length (a b : List Int) (h : Pfx a b)
    (hl : a.length = b.length) : a = b := by
  unfold Pfx at h
  rw [hl, List.take_length] at h
  exact h.symm

theorem Pfx_append_last (a c : List Int) (s : Int) (h : Pfx a (c ++ [s]))
    (hl : a.length ≤ c.length) : Pfx a c := by
  unfold Pfx at h ⊢
  rw [List.take_append_of_le_length hl] at h
  exact h

/-! ### Walk and label lemmas

From here on `next` is the final `nextNodeIdx`, and the hypotheses are the
relevant fields of `Inv` at the finished tree: parent links of non-roots
point strictly upwards (`Hpar`), sibling indices are in range (`Hsib`) and
injective per parent (`Hsibinj`), and the unique root is `r` (`Hroot`). -/

theorem walkUp_reverse (ns : List Node) :
    ∀ (fuel i : Nat),
      (walkUp ns fuel (nodeAt ns i)).reverse = labelF ns fuel i := by
  intro fuel
  induction fuel with
  | zero => intro i; rfl
  | succ fuel ih =>
    intro i
    unfold walkUp labelF
    by_cases hp : (nodeAt ns i).parentIndex = -1
    · rw [if_pos hp, if_pos hp]
      rfl
    · rw [if_neg hp, if_neg hp]
      rw [List.reverse_cons, ih ((nodeAt ns i).parentIndex.toNat)]

theorem labelF_stable (ns : List Node) (next C : Nat)
    (Hpar : ∀ i, i < next → (nodeAt ns i).parentIndex ≠ -1 →
      ∃ p : Nat, (nodeAt ns i).parentIndex = (p : Int) ∧ i < p ∧ C ≤ p ∧
        p < next) :
    ∀ (f1 f2 i : Nat), i < next → next - i ≤ f1 → next - i ≤ f2 →
      labelF ns f1 i = labelF ns f2 i := by
  intro f1
  induction f1 with
  | zero => intro f2 i hi h1 h2; omega
  | succ f1 ih =>
    intro f2 i hi h1 h2
    cases f2 with
    | zero => omega
    | succ f2 =>
      unfold labelF
      by_cases hp : (nodeAt ns i).parentIndex = -1
      · rw [if_pos hp, if_pos hp]
      · rw [if_neg hp, if_neg hp]
        obtain ⟨p, hpeq, hip, _, hpn⟩ := Hpar i hi hp
        have htn : (nodeAt ns i).parentIndex.toNat = p := by rw [hpeq]; simp
        rw [htn, ih f2 p hpn (by omega) (by omega)]

theorem labelF_step (ns : List Node) (next C N : Nat)
    (Hpar : ∀ i, i < next → (nodeAt ns i).parentIndex ≠ -1 →
      ∃ p : Nat, (nodeAt ns i).parentIndex = (p : Int) ∧ i < p ∧ C ≤ p ∧
        p < next)
    (hN : next ≤ N) (i : Nat) (hi : i < next) :
    labelF ns N i = if (nodeAt ns i).parentIndex = -1 then []
      else labelF ns N (nodeAt ns i).parentIndex.toNat ++
        [(nodeAt ns i).siblingIndex] := by
  cases N with
  | zero => omega
  | succ m =>
    by_cases hp : (nodeAt ns i).parentIndex = -1
    · rw [if_pos hp]
      unfold labelF
      rw [if_pos hp]
    · rw [if_neg hp]
      conv_lhs => unfold labelF
      rw [if_neg hp]
      obtain ⟨p, hpeq, hip, _, hpn⟩ := Hpar i hi hp
      have htn : (nodeAt ns i).parentIndex.toNat = p := by rw [hpeq]; simp
      rw [htn]
      rw [labelF_stable ns next C Hpar m (m + 1) p hpn (by omega) (by omega)]

theorem labelF_ne_nil (ns : List Node) (fuel i : Nat) (hf : 1 ≤ fuel)
    (hp : (nodeAt ns i).parentIndex ≠ -1) : labelF ns fuel i ≠ [] := by
  cases fuel with
  | zero => omega
  | succ m =>
    unfold labelF
    rw [if_neg hp]
    simp

theorem labelF_sib_range (ns : List Node) (next C b : Nat)
    (Hpar : ∀ i, i < next → (nodeAt ns i).parentIndex ≠ -1 →
      ∃ p : Nat, (nodeAt ns i).parentIndex = (p : Int) ∧ i < p ∧ C ≤ p ∧
        p < next)
    (Hsib : ∀ i, i < next → (nodeAt ns i).parentIndex ≠ -1 →
      ∃ s : Nat, (nodeAt ns i).siblingIndex = (s : Int) ∧ s < b) :
    ∀ (fuel i : Nat), i < next → next - i ≤ fuel →
      ∀ x ∈ labelF ns fuel i, ∃ s : Nat, x = (s : Int) ∧ s < b := by
  intro fuel
  induction fuel with
  | zero => intro i hi hf; omega
  | succ fuel ih =>
    intro i hi hf x hx
    unfold labelF at hx
    by_cases hp : (nodeAt ns i).parentIndex = -1
    · rw [if_pos hp] at hx
      simp at hx
    · rw [if_neg hp] at hx
      rcases List.mem_append.mp hx with hx1 | hx2
      · obtain ⟨p, hpeq, hip, _, hpn⟩ := Hpar i hi hp
        have htn : (nodeAt ns i).parentIndex.toNat = p := by rw [hpeq]; simp
        rw [htn] at hx1
        exact ih p hpn (by omega) x hx1
      · obtain ⟨s, hs, hsb⟩ := Hsib i hi hp
        have hxs : x = (nodeAt ns i).siblingIndex := by simpa using hx2
        exact ⟨s, by rw [hxs, hs], hsb⟩

theorem labelF_inj (ns : List Node) (next C N : Nat)
    (Hpar : ∀ i, i < next → (nodeAt ns i).parentIndex ≠ -1 →
      ∃ p : Nat, (nodeAt ns i).parentIndex = (p : Int) ∧ i < p ∧ C ≤ p ∧
        p < next)
    (r : Nat)
    (Hroot : ∀ i, i < next → ((nodeAt ns i).parentIndex = -1 ↔ i = r))
    (Hsibinj : ∀ i j, i < next → j < next →
      (nodeAt ns i).parentIndex ≠ -1 →
      (nodeAt ns i).parentIndex = (nodeAt ns j).parentIndex →
      (nodeAt ns i).siblingIndex = (nodeAt ns j).siblingIndex → i = j)
    (hN : next ≤ N) :
    ∀ (fuel i j : Nat), i < next → j < next → next - i ≤ fuel →
      labelF ns N i = labelF ns N j → i = j := by
  intro fuel
  induction fuel with
  | zero => intro i j hi hj hf; omega
  | succ fuel ih =>
    intro i j hi hj hf heq
    rw [labelF_step ns next C N Hpar hN i hi,
      labelF_step ns next C N Hpar hN j hj] at heq
    by_cases hpi : (nodeAt ns i).parentIndex = -1
    · by_cases hpj : (nodeAt ns j).parentIndex = -1
      · rw [(Hroot i hi).mp hpi, (Hroot j hj).mp hpj]
      · rw [if_pos hpi, if_neg hpj] at heq
        exact absurd heq.symm (by simp)
    · by_cases hpj : (nodeAt ns j).parentIndex = -1
      · rw [if_neg hpi, if_pos hpj] at heq
        exact absurd heq (by simp)
      · rw [if_neg hpi, if_neg hpj] at heq
        have hlen : (labelF ns N (nodeAt ns i).parentIndex.toNat).length =
            (labelF ns N (nodeAt ns j).parentIndex.toNat).length := by
          have := congrArg List.length heq
          simpa using this
        obtain ⟨hL, hS⟩ := List.append_inj heq (by simpa using hlen)
        have hs : (nodeAt ns i).siblingIndex = (nodeAt ns j).siblingIndex := by
          simpa using hS
        obtain ⟨pi, hpieq, hipi, _, hpin⟩ := Hpar i hi hpi
        obtain ⟨pj, hpjeq, hjpj, _, hpjn⟩ := Hpar j hj hpj
        have htni : (nodeAt ns i).parentIndex.toNat = pi := by rw [hpieq]; simp
        have htnj : (nodeAt ns j).parentIndex.toNat = pj := by rw [hpjeq]; simp
        rw [htni, htnj] at hL
        have hpp : pi = pj := ih pi pj hpin hpjn (by omega) hL
        apply Hsibinj i j hi hj hpi _ hs
        rw [hpieq, hpjeq, hpp]

theorem labelF_pfx (ns : List Node) (next C N : Nat)
    (Hpar : ∀ i, i < next → (nodeAt ns i).parentIndex ≠ -1 →
      ∃ p : Nat, (nodeAt ns i).parentIndex = (p : Int) ∧ i < p ∧ C ≤ p ∧
        p < next)
    (r : Nat)
    (Hroot : ∀ i, i < next → ((nodeAt ns i).parentIndex = -1 ↔ i = r))
    (Hsibinj : ∀ i j, i < next → j < next →
      (nodeAt ns i).parentIndex ≠ -1 →
      (nodeAt ns i).parentIndex = (nodeAt ns j).parentIndex →
      (nodeAt ns i).siblingIndex = (nodeAt ns j).siblingIndex → i = j)
    (hN : next ≤ N) :
    ∀ (fuel i j : Nat), i < next → j < next → next - j ≤ fuel →
      Pfx (labelF ns N i) (labelF ns N j) → i = j ∨ C ≤ i := by
  intro fuel
  induction fuel with
  | zero => intro i j hi hj hf; omega
  | succ fuel ih =>
    intro i j hi hj hf hpfx
    by_cases hpj : (nodeAt ns j).parentIndex = -1
    · have hLj : labelF ns N j = [] := by
        rw [labelF_step ns next C N Hpar hN j hj, if_pos hpj]
      rw [hLj] at hpfx
      have hLi : labelF ns N i = [] := Pfx_nil_right _ hpfx
      have hpi : (nodeAt ns i).parentIndex = -1 := by
        by_contra hpi
        exact labelF_ne_nil ns N i (by omega) hpi hLi
      left
      rw [(Hroot i hi).mp hpi, (Hroot j hj).mp hpj]
    · have hLj : labelF ns N j =
          labelF ns N (nodeAt ns j).parentIndex.toNat ++
            [(nodeAt ns j).siblingIndex] := by
        rw [labelF_step ns next C N Hpar hN j hj, if_neg hpj]
      obtain ⟨pj, hpjeq, hjpj, hCpj, hpjn⟩ := Hpar j hj hpj
      have htnj : (nodeAt ns j).parentIndex.toNat = pj := by rw [hpjeq]; simp
      rw [htnj] at hLj
      have hlen := Pfx_length _ _ hpfx
      by_cases hleq : (labelF ns N i).length = (labelF ns N j).length
      · have heq : labelF ns N i = labelF ns N j :=
          Pfx_eq_of_length _ _ hpfx hleq
        left
        exact labelF_inj ns next C N Hpar r Hroot Hsibinj hN next i j hi hj
          (by omega) heq
      · have hlt : (labelF ns N i).length < (labelF ns N j).length := by
          omega
        have hlenj : (labelF ns N j).length =
            (labelF ns N pj).length + 1 := by
          rw [hLj]
          simp
        have hpfx2 : Pfx (labelF ns N i) (labelF ns N pj) := by
          apply Pfx_append_last _ _ _ (hLj ▸ hpfx)
          omega
        rcases ih i pj hi hpjn (by omega) hpfx2 with h1 | h2
        · right
          omega
        · right
          exact h2

/-! ### Facts about the finished tree, packaged for the label proofs -/

theorem Label_general (base : Int) (f1 f2 : Int) (rest : List Int)
    (hb : ¬ base < 2) :
    Label base (f1 :: f2 :: rest) =
      some ((List.range (f1 :: f2 :: rest).length).map fun i =>
        (walkUp (buildTree base.toNat (f1 :: f2 :: rest)).nodes
          (buildTree base.toNat (f1 :: f2 :: rest)).nodes.length
          (nodeAt (buildTree base.toNat (f1 :: f2 :: rest)).nodes i)).reverse) := by
  unfold Label
  rw [if_neg hb]

theorem tree_hyps (b : Nat) (freqs : List Int) (hb : 2 ≤ b)
    (hC : 2 ≤ freqs.length) :
    ∃ r : Nat, freqs.length ≤ r ∧
      freqs.length ≤ (buildTree b freqs).next ∧
      (buildTree b freqs).next ≤ (buildTree b freqs).nodes.length ∧
      (∀ i, i < (buildTree b freqs).next →
        ((nodeAt (buildTree b freqs).nodes i).parentIndex = -1 ↔ i = r)) ∧
      (∀ i, i < (buildTree b freqs).next →
        (nodeAt (buildTree b freqs).nodes i).parentIndex ≠ -1 →
        ∃ p : Nat,
          (nodeAt (buildTree b freqs).nodes i).parentIndex = (p : Int) ∧
          i < p ∧ freqs.length ≤ p ∧ p < (buildTree b freqs).next) ∧
      (∀ i, i < (buildTree b freqs).next →
        (nodeAt (buildTree b freqs).nodes i).parentIndex ≠ -1 →
        ∃ s : Nat,
          (nodeAt (buildTree b freqs).nodes i).siblingIndex = (s : Int) ∧
          s < b) ∧
      (∀ i j, i < (buildTree b freqs).next → j < (buildTree b freqs).next →
        (nodeAt (buildTree b freqs).nodes i).parentIndex ≠ -1 →
        (nodeAt (buildTree b freqs).nodes i).parentIndex =
          (nodeAt (buildTree b freqs).nodes j).parentIndex →
        (nodeAt (buildTree b freqs).nodes i).siblingIndex =
          (nodeAt (buildTree b freqs).nodes j).siblingIndex → i = j) := by
  obtain ⟨inv, hlen1, _⟩ := buildTree_spec b freqs hb hC
  obtain ⟨r, hr⟩ := List.length_eq_one.mp hlen1
  have hrmem : r ∈ (buildTree b freqs).hp := by
    rw [hr]
    exact List.mem_singleton_self r
  refine ⟨r, inv.hp_single hlen1 r hrmem, inv.next_ge, ?_, ?_,
    inv.parent_spec, inv.sib_spec, inv.sib_inj⟩
  · rw [inv.hlen]
    exact inv.next_le
  · intro i hi
    rw [inv.root_iff i hi, hr]
    exact List.mem_singleton

/-! ### Claim theorems: the directly computable ones -/

/-- Claim C3: for every base at least 2, `Label` succeeds and returns exactly
one label per input item in input order: the result has the input's length,
the empty input yields the empty label list, and — whenever the tree is built,
i.e. for two or more items — the label at position `i` is exactly the reversed
root-to-leaf walk of pool slot `i`, the leaf that still carries frequency
`freqs[i]` in the finished tree. -/
theorem c3_one_label_per_item (base : Int) (freqs : List Int) (hb : 2 ≤ base) :
    ∃ ls, Label base freqs = some ls ∧ ls.length = freqs.length ∧
      (freqs = [] → ls = []) ∧
      (2 ≤ freqs.length → ∀ i, i < freqs.length →
        ls.getD i [] =
          (walkUp (buildTree base.toNat freqs).nodes
            (buildTree base.toNat freqs).nodes.length
            (nodeAt (buildTree base.toNat freqs).nodes i)).reverse ∧
        (nodeAt (buildTree base.toNat freqs).nodes i).freq =
          freqs.getD i 0) := by
  have hb' : ¬ base < 2 := by omega
  match freqs with
  | [] =>
    exact ⟨[], by simp [Label, hb'], rfl, fun _ => rfl, by intro h; simp at h⟩
  | [f] =>
    exact ⟨[[0]], by simp [Label, hb'], rfl, by simp, by intro h; simp at h⟩
  | f1 :: f2 :: rest =>
    have hCF : 2 ≤ (f1 :: f2 :: rest).length := by simp
    have hb2 : 2 ≤ base.toNat := by omega
    obtain ⟨inv, _, _⟩ := buildTree_spec base.toNat (f1 :: f2 :: rest) hb2 hCF
    refine ⟨_, Label_general base f1 f2 rest hb', by simp, by simp, ?_⟩
    intro _ i hi
    constructor
    · rw [List.getD_eq_getElem _ _ (by simpa using hi), List.getElem_map,
        List.getElem_range]
    · exact inv.leaf_freq i hi

/-- Witness for C3 at base 2 and frequencies `[5, 1, 4]`. -/
theorem c3_one_label_per_item_witness :
    ∃ ls, Label 2 [5, 1, 4] = some ls ∧
      ls.length = ([5, 1, 4] : List Int).length ∧
      (([5, 1, 4] : List Int) = [] → ls = []) ∧
      (2 ≤ ([5, 1, 4] : List Int).length →
        ∀ i, i < ([5, 1, 4] : List Int).length →
        ls.getD i [] =
          (walkUp (buildTree (2 : Int).toNat [5, 1, 4]).nodes
            (buildTree (2 : Int).toNat [5, 1, 4]).nodes.length
            (nodeAt (buildTree (2 : Int).toNat [5, 1, 4]).nodes i)).reverse ∧
        (nodeAt (buildTree (2 : Int).toNat [5, 1, 4]).nodes i).freq =
          ([5, 1, 4] : List Int).getD i 0) :=
  c3_one_label_per_item 2 [5, 1, 4] (by decide)

/-- Claim C4: `Label` fails (the Go function panics) if and only if
`base < 2`, regardless of the frequency list; for `base ≥ 2` it always
returns a complete result, and on failure it returns nothing at all. -/
theorem c4_fails_iff_base_lt_two (base : Int) (freqs : List Int) :
    Label base freqs = none ↔ base < 2 := by
  by_cases hb : base < 2
  · simp [Label, hb]
  · match freqs with
    | [] => simp [Label, hb]
    | [f] => simp [Label, hb]
    | f1 :: f2 :: rest => simp [Label, hb]

/-- Claim C8: with base 2 and frequencies `[1,1,1,1,1]`, `Label` returns
exactly `[[0,0],[1,1,1],[1,0],[1,1,0],[0,1]]` — over the alphabet `ab`,
the labels `aa, bbb, ba, bba, ab` in input order. -/
theorem c8_concrete_example :
    Label 2 [1, 1, 1, 1, 1] =
      some [[0, 0], [1, 1, 1], [1, 0], [1, 1, 0], [0, 1]] := by
  rfl

/-- Claim C9: for every base at least 2 and any single frequency `f`,
`Label base [f]` is exactly `[[0]]`. -/
theorem c9_single_item (base : Int) (f : Int) (hb : 2 ≤ base) :
    Label base [f] = some [[0]] := by
  have hb' : ¬ base < 2 := by omega
  simp [Label, hb']

/-- Witness for C9 at base 26 and frequency `-7`. -/
theorem c9_single_item_witness : Label 26 [-7] = some [[0]] :=
  c9_single_item 26 (-7) (by decide)

/-- Claim C10: `Label` is a deterministic function of its two inputs — any
two invocations on the same `(base, freqs)` produce identical label lists. -/
theorem c10_deterministic (base : Int) (freqs : List Int)
    (out1 out2 : Option (List (List Int)))
    (h1 : Label base freqs = out1) (h2 : Label base freqs = out2) :
    out1 = out2 := by
  rw [← h1, ← h2]

/-- Witness for C10 at base 2 and frequencies `[1, 2]`. -/
theorem c10_deterministic_witness :
    (some [[0], [1]] : Option (List (List Int))) = some [[0], [1]] :=
  c10_deterministic 2 [1, 2] (some [[0], [1]]) (some [[0], [1]]) rfl rfl

/-- Claim C5 fails on the code (integer overflow): on `c5Freqs`, item 0 is
the unique lowest-frequency item and item 3 the unique highest-frequency
item, yet item 0 receives a strictly shorter label (length 2) than item 3
(length 3), because the Go `int` sum of subtree frequencies wraps around. -/
theorem c5_overflow_bug :
    ∃ ls, Label 2 c5Freqs = some ls ∧
      (∀ k, k < c5Freqs.length → k ≠ 0 →
        c5Freqs.getD 0 0 < c5Freqs.getD k 0) ∧
      (∀ k, k < c5Freqs.length → k ≠ 3 →
        c5Freqs.getD k 0 < c5Freqs.getD 3 0) ∧
      (ls.getD 0 []).length < (ls.getD 3 []).length := by
  refine ⟨[[1, 0], [0, 1, 1], [1, 1], [0, 0, 1], [0, 1, 0], [0, 0, 0]], rfl,
    by decide, by decide, by decide⟩

/-- Claim C2: for every base at least 2, every returned label is non-empty
and every symbol index in every returned label lies in `[0, base)`. -/
theorem c2_nonempty_inRange (base : Int) (freqs : List Int)
    (ls : List (List Int)) (hb : 2 ≤ base) (hL : Label base freqs = some ls) :
    ∀ l ∈ ls, l ≠ [] ∧ ∀ x ∈ l, 0 ≤ x ∧ x < base := by
  have hb' : ¬ base < 2 := by omega
  match freqs with
  | [] =>
    have hls : ls = [] := by
      rw [show Label base [] = some [] from by simp [Label, hb']] at hL
      exact (Option.some.inj hL).symm
    intro l hl
    rw [hls] at hl
    simp at hl
  | [f] =>
    have hls : ls = [[0]] := by
      rw [show Label base [f] = some [[0]] from by simp [Label, hb']] at hL
      exact (Option.some.inj hL).symm
    intro l hl
    rw [hls] at hl
    have hl0 : l = [0] := by simpa using hl
    subst hl0
    refine ⟨by simp, ?_⟩
    intro x hx
    have hx0 : x = 0 := by simpa using hx
    subst hx0
    omega
  | f1 :: f2 :: rest =>
    have hCF : 2 ≤ (f1 :: f2 :: rest).length := by simp
    have hb2 : 2 ≤ base.toNat := by omega
    rw [Label_general base f1 f2 rest hb'] at hL
    have hls := (Option.some.inj hL).symm
    obtain ⟨r, hrC, hCnext, hnextle, Hroot, Hpar, Hsib, Hsibinj⟩ :=
      tree_hyps base.toNat (f1 :: f2 :: rest) hb2 hCF
    intro l hl
    rw [hls] at hl
    obtain ⟨i, hir, hli⟩ := List.mem_map.mp hl
    have hiC : i < (f1 :: f2 :: rest).length := List.mem_range.mp hir
    have hinext : i < (buildTree base.toNat (f1 :: f2 :: rest)).next := by
      omega
    have hlab : l = labelF (buildTree base.toNat (f1 :: f2 :: rest)).nodes
        (buildTree base.toNat (f1 :: f2 :: rest)).nodes.length i := by
      rw [← hli, walkUp_reverse]
    have hiner : i ≠ r := by omega
    have hpari : (nodeAt (buildTree base.toNat (f1 :: f2 :: rest)).nodes
        i).parentIndex ≠ -1 := by
      intro hroot
      exact hiner ((Hroot i hinext).mp hroot)
    constructor
    · rw [hlab]
      exact labelF_ne_nil _ _ i (by omega) hpari
    · intro x hx
      rw [hlab] at hx
      obtain ⟨s, hxs, hsb⟩ := labelF_sib_range _ _ _ _ Hpar Hsib _ i hinext
        (by omega) x hx
      constructor
      · rw [hxs]
        omega
      · rw [hxs]
        omega

/-- Witness for C2 on the base-2 run over frequencies `[1,1,1,1,1]`, at the
first returned label `[0, 0]`. -/
theorem c2_nonempty_inRange_witness :
    ([0, 0] : List Int) ≠ [] ∧ ∀ x ∈ ([0, 0] : List Int), 0 ≤ x ∧ x < 2 :=
  c2_nonempty_inRange 2 [1, 1, 1, 1, 1]
    [[0, 0], [1, 1, 1], [1, 0], [1, 1, 0], [0, 1]] (by decide) rfl
    [0, 0] (by decide)

/-- Claim C1: for every base at least 2, the returned labels are pairwise
prefix-free and pairwise distinct: no label is a prefix of (in particular,
equal to) another label at a different position. -/
theorem c1_prefixFree (base : Int) (freqs : List Int)
    (ls : List (List Int)) (hb : 2 ≤ base) (hL : Label base freqs = some ls) :
    ∀ i j, i < ls.length → j < ls.length → i ≠ j →
      ¬ Pfx (ls.getD i []) (ls.getD j []) ∧ ls.getD i [] ≠ ls.getD j [] := by
  have hb' : ¬ base < 2 := by omega
  match freqs with
  | [] =>
    have hls : ls = [] := by
      rw [show Label base [] = some [] from by simp [Label, hb']] at hL
      exact (Option.some.inj hL).symm
    intro i j hi hj hne
    rw [hls] at hi
    simp at hi
  | [f] =>
    have hls : ls = [[0]] := by
      rw [show Label base [f] = some [[0]] from by simp [Label, hb']] at hL
      exact (Option.some.inj hL).symm
    intro i j hi hj hne
    rw [hls] at hi hj
    simp at hi hj
    omega
  | f1 :: f2 :: rest =>
    have hCF : 2 ≤ (f1 :: f2 :: rest).length := by simp
    have hb2 : 2 ≤ base.toNat := by omega
    rw [Label_general base f1 f2 rest hb'] at hL
    have hls := (Option.some.inj hL).symm
    obtain ⟨r, hrC, hCnext, hnextle, Hroot, Hpar, Hsib, Hsibinj⟩ :=
      tree_hyps base.toNat (f1 :: f2 :: rest) hb2 hCF
    have hlslen : ls.length = (f1 :: f2 :: rest).length := by
      rw [hls]
      simp
    have hgd : ∀ i, i < (f1 :: f2 :: rest).length →
        ls.getD i [] = labelF (buildTree base.toNat (f1 :: f2 :: rest)).nodes
          (buildTree base.toNat (f1 :: f2 :: rest)).nodes.length i := by
      intro i hi
      rw [hls, List.getD_eq_getElem _ _ (by simpa using hi), List.getElem_map,
        List.getElem_range, walkUp_reverse]
    intro i j hi hj hne
    rw [hlslen] at hi hj
    have hipfx : ¬ Pfx (ls.getD i []) (ls.getD j []) := by
      intro hpfx
      rw [hgd i hi, hgd j hj] at hpfx
      rcases labelF_pfx _ _ _ _ Hpar r Hroot Hsibinj hnextle
          (buildTree base.toNat (f1 :: f2 :: rest)).next i j (by omega)
          (by omega) (by omega) hpfx with h1 | h2 <;> omega
    refine ⟨hipfx, ?_⟩
    intro heq
    apply hipfx
    rw [heq]
    exact Pfx_self _

/-- Witness for C1 on the base-2 run over frequencies `[1,1,1,1,1]`, at label
positions 0 and 1. -/
theorem c1_prefixFree_witness :
    ¬ Pfx (([[0, 0], [1, 1, 1], [1, 0], [1, 1, 0], [0, 1]] :
        List (List Int)).getD 0 [])
      (([[0, 0], [1, 1, 1], [1, 0], [1, 1, 0], [0, 1]] :
        List (List Int)).getD 1 []) ∧
    ([[0, 0], [1, 1, 1], [1, 0], [1, 1, 0], [0, 1]] :
        List (List Int)).getD 0 [] ≠
      ([[0, 0], [1, 1, 1], [1, 0], [1, 1, 0], [0, 1]] :
        List (List Int)).getD 1 [] :=
  c1_prefixFree 2 [1, 1, 1, 1, 1]
    [[0, 0], [1, 1, 1], [1, 0], [1, 1, 0], [0, 1]] (by decide) rfl
    0 1 (by decide) (by decide) (by decide)

/-- Claim C6: for `C ≥ 2` items the first combine merges exactly
`initialCount = 2 + (C-2) mod (base-1)` nodes — a value in `[2, base]` — and
every later combine merges exactly `base` nodes: in the finished tree the
first-created internal slot `C` has `initialCount` children and every other
internal slot has exactly `base` children. -/
theorem c6_combine_counts (b : Nat) (freqs : List Int) (hb : 2 ≤ b)
    (hC : 2 ≤ freqs.length) :
    initialCount b freqs.length = 2 + (freqs.length - 2) % (b - 1) ∧
    2 ≤ initialCount b freqs.length ∧ initialCount b freqs.length ≤ b ∧
    childCount (buildTree b freqs).nodes freqs.length =
      initialCount b freqs.length ∧
    ∀ p, freqs.length < p → p < (buildTree b freqs).next →
      childCount (buildTree b freqs).nodes p = b := by
  obtain ⟨inv, _, hnext⟩ := buildTree_spec b freqs hb hC
  have hb1 : 0 < b - 1 := by omega
  have hmod : (freqs.length - 2) % (b - 1) < b - 1 := Nat.mod_lt _ hb1
  refine ⟨rfl, ?_, ?_, ?_, inv.cc_rest⟩
  · unfold initialCount
    omega
  · unfold initialCount
    omega
  · apply inv.cc_first
    generalize (freqs.length - 2) / (b - 1) = w at hnext
    omega

/-- Witness for C6 at base 2 and frequencies `[3, 1, 2]`. -/
theorem c6_combine_counts_witness :
    initialCount 2 ([3, 1, 2] : List Int).length =
      2 + (([3, 1, 2] : List Int).length - 2) % (2 - 1) ∧
    2 ≤ initialCount 2 ([3, 1, 2] : List Int).length ∧
    initialCount 2 ([3, 1, 2] : List Int).length ≤ 2 ∧
    childCount (buildTree 2 [3, 1, 2]).nodes ([3, 1, 2] : List Int).length =
      initialCount 2 ([3, 1, 2] : List Int).length ∧
    ∀ p, ([3, 1, 2] : List Int).length < p → p < (buildTree 2 [3, 1, 2]).next →
      childCount (buildTree 2 [3, 1, 2]).nodes p = 2 :=
  c6_combine_counts 2 [3, 1, 2] (by decide) (by decide)

/-- Claim C7: the pool of `N = C + numIters` nodes suffices: the construction
creates at most `numIters = (C-1)/(base-1) + 1` internal nodes, the final
`nextNodeIdx` stays within the pool, the loop ends with a single root in the
queue, and no combine ever finds the queue exhausted — every combine pops
exactly the requested number of children (`initialCount` for the first one,
`base` for all others), as the exact child counts show. -/
theorem c7_pool_sufficient (b : Nat) (freqs : List Int) (hb : 2 ≤ b)
    (hC : 2 ≤ freqs.length) :
    (buildTree b freqs).next - freqs.length ≤ numIters b freqs.length ∧
    (buildTree b freqs).next ≤ numNodesOf b freqs.length ∧
    (buildTree b freqs).nodes.length = numNodesOf b freqs.length ∧
    (buildTree b freqs).hp.length = 1 ∧
    childCount (buildTree b freqs).nodes freqs.length =
      initialCount b freqs.length ∧
    ∀ p, freqs.length < p → p < (buildTree b freqs).next →
      childCount (buildTree b freqs).nodes p = b := by
  obtain ⟨inv, hlen1, hnext⟩ := buildTree_spec b freqs hb hC
  have hqle : (freqs.length - 2) / (b - 1) ≤ (freqs.length - 1) / (b - 1) :=
    Nat.div_le_div_right (by omega)
  have hiter : numIters b freqs.length = (freqs.length - 1) / (b - 1) + 1 := rfl
  have hfirstc : freqs.length < (buildTree b freqs).next := by
    generalize (freqs.length - 2) / (b - 1) = w at hnext
    omega
  have hcnt : (buildTree b freqs).next - freqs.length ≤
      numIters b freqs.length := by
    generalize hw1 : (freqs.length - 2) / (b - 1) = w1 at hnext hqle
    generalize hw2 : (freqs.length - 1) / (b - 1) = w2 at hqle hiter
    omega
  exact ⟨hcnt, inv.next_le, inv.hlen, hlen1, inv.cc_first hfirstc,
    inv.cc_rest⟩

/-- Witness for C7 at base 3 and frequencies `[5, 4, 3, 2, 1]`. -/
theorem c7_pool_sufficient_witness :
    (buildTree 3 [5, 4, 3, 2, 1]).next - ([5, 4, 3, 2, 1] : List Int).length ≤
      numIters 3 ([5, 4, 3, 2, 1] : List Int).length ∧
    (buildTree 3 [5, 4, 3, 2, 1]).next ≤
      numNodesOf 3 ([5, 4, 3, 2, 1] : List Int).length ∧
    (buildTree 3 [5, 4, 3, 2, 1]).nodes.length =
      numNodesOf 3 ([5, 4, 3, 2, 1] : List Int).length ∧
    (buildTree 3 [5, 4, 3, 2, 1]).hp.length = 1 ∧
    childCount (buildTree 3 [5, 4, 3, 2, 1]).nodes
      ([5, 4, 3, 2, 1] : List Int).length =
      initialCount 3 ([5, 4, 3, 2, 1] : List Int).length ∧
    ∀ p, ([5, 4, 3, 2, 1] : List Int).length < p →
      p < (buildTree 3 [5, 4, 3, 2, 1]).next →
      childCount (buildTree 3 [5, 4, 3, 2, 1]).nodes p = 3 :=
  c7_pool_sufficient 3 [5, 4, 3, 2, 1] (by decide) (by decide)

end Huffman
